import Mathlib

set_option maxHeartbeats 4000000
set_option maxRecDepth 8000

/-!
Shallow embedding of the core OCR-interpretation engine of the
Screenshot-File-Automator repository (files `screenshot_processor.py` and
`Smart_OCR_Tool.py`).

Strings are modelled as `List Char`.  Python `re` machinery is embedded by
hand-translated matchers for the concrete patterns appearing in the source;
word characters, upper/lower casing and whitespace follow the ASCII semantics
(the inputs handled by the claims are ASCII).  Confidence scores (Python
floats in `[0, 1]` plus the literal constants 0.5–0.9) are modelled as `ℚ`;
the engine only ever compares confidences, and on the literal constants the
rational order agrees with the IEEE-double order.
-/

abbrev Chars := List Char

/-- Model of one EasyOCR result tuple `(bbox, text, prob)` as consumed by
`extract_time_advanced` / `find_all_details`: only `result[1]` (the text) and
`result[2]` (the confidence) are read there; `conf = none` models a tuple of
length ≤ 2, for which the code substitutes `0.5`. -/
structure Detection where
  text : Chars
  conf : Option ℚ

/-- Indexing `s[i]` as done by the matchers (out of range gives `none`). -/
def getC : Chars → Nat → Option Char
  | [], _ => none
  | c :: _, 0 => some c
  | _ :: cs, n + 1 => getC cs n

/-- Model of the regex word-character class `\w` (ASCII: letters, digits, underscore). -/
def isWordC (c : Char) : Bool := c.isAlphanum || c = '_'

def wordAt (s : Chars) (i : Nat) : Bool :=
  match getC s i with
  | some c => isWordC c
  | none => false

/-- Python `re` word boundary `\b` at position `i` of `s`: exactly one of the
neighbouring positions holds a word character (out of range counts as non-word). -/
def boundary (s : Chars) (i : Nat) : Bool :=
  (if i = 0 then false else wordAt s (i - 1)) != wordAt s i

def charBtw (lo hi c : Char) : Bool := decide (lo ≤ c) && decide (c ≤ hi)

/-- The separator class `[:;.]` of the time regexes. -/
def isSepC (c : Char) : Bool := c = ':' || c = ';' || c = '.'

/-- ASCII whitespace as stripped by Python `str.strip` and matched by `\s`. -/
def isSpaceC (c : Char) : Bool :=
  c = ' ' || c = '\t' || c = '\n' || c = '\r' || c = '\x0b' || c = '\x0c'

/-- Python `str.strip()`. -/
def pyStrip (s : Chars) : Chars :=
  ((s.dropWhile isSpaceC).reverse.dropWhile isSpaceC).reverse

/-- Python `str.upper()` (ASCII model). -/
def upperChars (s : Chars) : Chars := s.map Char.toUpper

/-- Python `str.lower()` (ASCII model). -/
def lowerChars (s : Chars) : Chars := s.map Char.toLower

/-- Python `" ".join([res[1] for res in ocr_results])`. -/
def joinTexts (dets : List Detection) : Chars :=
  match dets with
  | [] => []
  | d :: rest => d.text ++ rest.flatMap (fun e => ' ' :: e.text)

/-- Python `int()` applied to a captured group consisting of decimal digits. -/
def digitsToNat (l : Chars) : Nat :=
  l.foldl (fun a c => 10 * a + (c.toNat - 48)) 0

/-- Decimal rendering of a nonnegative int, as in the f-string `{h}`. -/
def natChars (n : Nat) : Chars := (Nat.repr n).data

/-- The f-string field `{m:02d}` for a nonnegative int. -/
def pad2 (m : Nat) : Chars := if m < 10 then '0' :: natChars m else natChars m

/-- The time string `f"{h};{m:02d}"` built by every strategy. -/
def render (h m : Nat) : Chars := natChars h ++ ';' :: pad2 m

/-- The literal unobfuscated text `f"{hour}:{minute:02d}"` used by the spec's
candidate-generation property. -/
def colonText (h m : Nat) : Chars := natChars h ++ ':' :: pad2 m

/-- The `corrections` dict literal of `fix_common_digit_errors`, after Python
dict-literal semantics: a duplicated key keeps its first position and its last
value, so `'G'` maps to `'6'` (the `'G': '5'` entry is overwritten) and `'g'`
maps to `'9'` (the `'g': '6'` entry is overwritten); `'8': '8'` is kept as the
identity entry it is. -/
def corrections : List (Char × Char) :=
  [('O', '0'), ('o', '0'), ('Q', '0'), ('D', '0'), ('U', '0'), ('C', '0'),
   ('I', '1'), ('l', '1'), ('L', '1'), ('|', '1'), ('J', '1'), ('i', '1'),
   ('Z', '2'), ('z', '2'), ('R', '2'),
   ('E', '3'), ('e', '3'),
   ('A', '4'), ('a', '4'),
   ('S', '5'), ('s', '5'),
   ('G', '6'), ('g', '9'), ('b', '6'),
   ('T', '7'), ('t', '7'), ('?', '7'),
   ('B', '8'), ('8', '8'),
   ('q', '9')]

/-- Python `str.replace` for single-character pattern and replacement. -/
def replaceChar (k v : Char) (s : Chars) : Chars :=
  s.map (fun c => if c = k then v else c)

/-- `fix_common_digit_errors`: the sequential `result.replace(wrong, right)`
loop over the corrections dict. -/
def fix_common_digit_errors (s : Chars) : Chars :=
  corrections.foldl (fun acc p => replaceChar p.1 p.2 acc) s

/-- The effect of the whole replace loop on one character. -/
def applyCorr (c : Char) : Char :=
  corrections.foldl (fun a p => if a = p.1 then p.2 else a) c

/-- The continuation `[:;.](F[0-9])\b` shared by the `hour:minute` regexes,
starting right after a captured hour of length `hlen` at position `i`; `mFst`
is the character class of the first minute digit (`[0-5]` or `[0-9]`). -/
def contHM (mFst : Char → Bool) (s : Chars) (i hlen : Nat) (hstr : Chars) :
    Option ((Chars × Chars) × Nat) :=
  match getC s (i + hlen), getC s (i + hlen + 1), getC s (i + hlen + 2) with
  | some c, some a, some b =>
    if isSepC c && mFst a && b.isDigit && boundary s (i + hlen + 3)
    then some ((hstr, [a, b]), hlen + 3) else none
  | _, _, _ => none

/-- Matcher for `\b([0-9]|1[0-5])[:;.](F[0-9])\b` at one position: the left
alternative (a single digit) is tried first and the right alternative
(`1[0-5]`) on backtracking, exactly as Python's regex engine does. -/
def matchStd (mFst : Char → Bool) (s : Chars) (i : Nat) :
    Option ((Chars × Chars) × Nat) :=
  if boundary s i then
    match (match getC s i with
           | some c => if c.isDigit then contHM mFst s i 1 [c] else none
           | none => none) with
    | some r => some r
    | none =>
      match getC s i, getC s (i + 1) with
      | some c, some d =>
        if c = '1' && charBtw '0' '5' d then contHM mFst s i 2 [c, d] else none
      | _, _ => none
  else none

/-- Matcher for `\b(9|10|11|12|13|14|15)[:;.](F[0-9])\b`.  The alternatives
`9` and `10`..`15` are distinguished by their first character, so the
left-to-right alternation collapses to this case split. -/
def matchVH (mFst : Char → Bool) (s : Chars) (i : Nat) :
    Option ((Chars × Chars) × Nat) :=
  if boundary s i then
    match getC s i with
    | some c =>
      if c = '9' then contHM mFst s i 1 [c]
      else
        match getC s (i + 1) with
        | some d =>
          if c = '1' && charBtw '0' '5' d then contHM mFst s i 2 [c, d] else none
        | none => none
    | none => none
  else none

/-- Matcher for the three-group "problematic" patterns of Strategy 2, all of
shape `\b(H1)(H2)[:;.](F[0-9])\b` with single-character hour groups. -/
def matchPair (h1 h2 mFst : Char → Bool) (s : Chars) (i : Nat) :
    Option ((Char × Char × Chars) × Nat) :=
  if boundary s i then
    match getC s i, getC s (i + 1), getC s (i + 2), getC s (i + 3), getC s (i + 4) with
    | some a, some b, some c, some d, some e =>
      if h1 a && h2 b && isSepC c && mFst d && e.isDigit && boundary s (i + 5)
      then some ((a, b, [d, e]), 5) else none
    | _, _, _, _, _ => none
  else none

/-- Length of the maximal run of characters satisfying `p` at the head. -/
def countWhile (p : Char → Bool) : Chars → Nat
  | [] => 0
  | c :: cs => if p c then countWhile p cs + 1 else 0

/-- The continuation `\s+([0-5][0-9])\b` of the Strategy 4 regex.  `\s+` is
greedy; shorter whitespace runs would leave a whitespace character where
`[0-5]` must match, so only the maximal run can succeed. -/
def contSpace (s : Chars) (i hlen : Nat) (hstr : Chars) :
    Option ((Chars × Chars) × Nat) :=
  let w := countWhile isSpaceC (s.drop (i + hlen))
  if w = 0 then none
  else
    match getC s (i + hlen + w), getC s (i + hlen + w + 1) with
    | some a, some b =>
      if charBtw '0' '5' a && b.isDigit && boundary s (i + hlen + w + 2)
      then some ((hstr, [a, b]), hlen + w + 2) else none
    | _, _ => none

/-- Matcher for `\b([0-9]|1[0-5])\s+([0-5][0-9])\b` (Strategy 4). -/
def matchSpaced (s : Chars) (i : Nat) : Option ((Chars × Chars) × Nat) :=
  if boundary s i then
    match (match getC s i with
           | some c => if c.isDigit then contSpace s i 1 [c] else none
           | none => none) with
    | some r => some r
    | none =>
      match getC s i, getC s (i + 1) with
      | some c, some d =>
        if c = '1' && charBtw '0' '5' d then contSpace s i 2 [c, d] else none
      | _, _ => none
  else none

/-- Strategy 5 fix `\b7([0-5])[:;.]([0-5][0-9])\b` → `1\1;\2`.  The matcher
returns the replacement text and the matched length. -/
def matchFix75 (s : Chars) (i : Nat) : Option (Chars × Nat) :=
  if boundary s i then
    match getC s i, getC s (i + 1), getC s (i + 2), getC s (i + 3), getC s (i + 4) with
    | some a, some b, some c, some d, some e =>
      if a = '7' && charBtw '0' '5' b && isSepC c && charBtw '0' '5' d &&
         e.isDigit && boundary s (i + 5)
      then some (['1', b, ';', d, e], 5) else none
    | _, _, _, _, _ => none
  else none

/-- Strategy 5 fix `\b6([0-5])[:;.]([0-5][0-9])\b` → `1\1;\2`. -/
def matchFix65 (s : Chars) (i : Nat) : Option (Chars × Nat) :=
  if boundary s i then
    match getC s i, getC s (i + 1), getC s (i + 2), getC s (i + 3), getC s (i + 4) with
    | some a, some b, some c, some d, some e =>
      if a = '6' && charBtw '0' '5' b && isSepC c && charBtw '0' '5' d &&
         e.isDigit && boundary s (i + 5)
      then some (['1', b, ';', d, e], 5) else none
    | _, _, _, _, _ => none
  else none

/-- Strategy 5 fix `\b([0-9]|1[0-5])[:;.]7([0-9])\b` → `\1;1\2` (hour
alternation with backtracking as in `matchStd`). -/
def matchFixM7 (s : Chars) (i : Nat) : Option (Chars × Nat) :=
  if boundary s i then
    match (match getC s i, getC s (i + 1), getC s (i + 2), getC s (i + 3) with
           | some a, some c, some d, some e =>
             if a.isDigit && isSepC c && d = '7' && e.isDigit && boundary s (i + 4)
             then some ([a, ';', '1', e], 4) else none
           | _, _, _, _ => none) with
    | some r => some r
    | none =>
      match getC s i, getC s (i + 1), getC s (i + 2), getC s (i + 3), getC s (i + 4) with
      | some a, some b, some c, some d, some e =>
        if a = '1' && charBtw '0' '5' b && isSepC c && d = '7' && e.isDigit &&
           boundary s (i + 5)
        then some ([a, b, ';', '1', e], 5) else none
      | _, _, _, _, _ => none
  else none

/-- Strategy 5 fix `\b([0-9]|1[0-5])[:;.]6([0-9])\b` → `\1;0\2`. -/
def matchFixM6 (s : Chars) (i : Nat) : Option (Chars × Nat) :=
  if boundary s i then
    match (match getC s i, getC s (i + 1), getC s (i + 2), getC s (i + 3) with
           | some a, some c, some d, some e =>
             if a.isDigit && isSepC c && d = '6' && e.isDigit && boundary s (i + 4)
             then some ([a, ';', '0', e], 4) else none
           | _, _, _, _ => none) with
    | some r => some r
    | none =>
      match getC s i, getC s (i + 1), getC s (i + 2), getC s (i + 3), getC s (i + 4) with
      | some a, some b, some c, some d, some e =>
        if a = '1' && charBtw '0' '5' b && isSepC c && d = '6' && e.isDigit &&
           boundary s (i + 5)
        then some ([a, b, ';', '0', e], 5) else none
      | _, _, _, _, _ => none
  else none

/-- `re.findall` over a matcher: scan left to right, on a match emit its
groups and continue after it (non-overlapping), otherwise advance one
position.  All embedded matchers consume at least one character.  Fuel
`s.length + 1` suffices since every step advances the position. -/
def findAllAux {γ : Type} (m : Chars → Nat → Option (γ × Nat)) (s : Chars) :
    Nat → Nat → List γ
  | _, 0 => []
  | i, fuel + 1 =>
    if i ≤ s.length then
      match m s i with
      | some (g, len) => g :: findAllAux m s (i + len) fuel
      | none => findAllAux m s (i + 1) fuel
    else []

def findAll {γ : Type} (m : Chars → Nat → Option (γ × Nat)) (s : Chars) : List γ :=
  findAllAux m s 0 (s.length + 1)

/-- `re.sub` over a matcher returning replacement text and matched length. -/
def subAllAux (m : Chars → Nat → Option (Chars × Nat)) (s : Chars) :
    Nat → Nat → Chars
  | i, 0 => s.drop i
  | i, fuel + 1 =>
    match getC s i with
    | none => []
    | some c =>
      match m s i with
      | some (rep, len) => rep ++ subAllAux m s (i + len) fuel
      | none => c :: subAllAux m s (i + 1) fuel

def subAll (m : Chars → Nat → Option (Chars × Nat)) (s : Chars) : Chars :=
  subAllAux m s 0 (s.length + 1)

/-- The shared candidate-emission step: the validity test
`if 9 <= h <= 15 and 0 <= m <= 59` guarding every
`found_times.append((f"{h};{m:02d}", conf))`.  The parsed minutes are
nonnegative by construction, so `0 <= m` is automatic on `Nat`. -/
def gate (conf : ℚ) (h m : Nat) : List (Chars × ℚ) :=
  if 9 ≤ h ∧ h ≤ 15 ∧ m ≤ 59 then [(render h m, conf)] else []

/-- Strategy 1 body for one detection: `text = result[1].upper().strip()`,
confidence `result[2]` (or `0.5`), `cleaned_text = fix_common_digit_errors(text)`,
then the three time patterns in their source order.  The `int()` calls cannot
raise, since the captured groups are digit-only. -/
def strat1Det (d : Detection) : List (Chars × ℚ) :=
  let t := pyStrip (upperChars d.text)
  let conf := d.conf.getD (mkRat 1 2)
  let cleaned := fix_common_digit_errors t
  ((findAll (matchStd (charBtw '0' '5')) cleaned ++
    findAll (matchStd Char.isDigit) cleaned) ++
    findAll (matchVH (charBtw '0' '5')) cleaned).flatMap
    (fun g => gate conf (digitsToNat g.1) (digitsToNat g.2))

def strategy1 (dets : List Detection) : List (Chars × ℚ) :=
  dets.flatMap strat1Det

/-- Strategy 2 hour repair: `'1' + second_digit` when the first digit is in
`{'6','7'}` or `{'8','9'}`, otherwise both digits unchanged. -/
def hourFix (a b : Char) : Chars :=
  if a = '6' || a = '7' then ['1', b]
  else if a = '8' || a = '9' then ['1', b]
  else [a, b]

/-- Strategy 2 minute repair for `minute_val >= 60`, keyed on the leading
minute digit (`6→0`, `7→1`, `8→3`, `9→3`). -/
def minuteFix (mm : Chars) : Chars :=
  if 60 ≤ digitsToNat mm then
    match mm with
    | [] => []
    | m0 :: rest =>
      if m0 = '6' then '0' :: rest
      else if m0 = '7' then '1' :: rest
      else if m0 = '8' then '3' :: rest
      else if m0 = '9' then '3' :: rest
      else m0 :: rest
  else mm

def strat2Group (g : Char × Char × Chars) : List (Chars × ℚ) :=
  gate (mkRat 7 10) (digitsToNat (hourFix g.1 g.2.1)) (digitsToNat (minuteFix g.2.2))

/-- Strategy 2: the three "problematic" patterns applied to the raw joined
text, with hour/minute repair and the fixed confidence `0.7`. -/
def strategy2 (dets : List Detection) : List (Chars × ℚ) :=
  let full := joinTexts dets
  ((findAll (matchPair (fun c => c = '6' || c = '7')
      (fun c => c = '0' || c = '1') (charBtw '0' '5')) full ++
    findAll (matchPair (fun c => c = '7' || c = '8' || c = '9')
      Char.isDigit (charBtw '0' '5')) full) ++
    findAll (matchPair Char.isDigit Char.isDigit (charBtw '6' '9')) full).flatMap
    strat2Group

/-- `corrected_full_text = fix_common_digit_errors(full_text.upper())`. -/
def correctedFullText (dets : List Detection) : Chars :=
  fix_common_digit_errors (upperChars (joinTexts dets))

/-- Strategy 3: the two time patterns on the corrected full text, confidence `0.9`. -/
def strategy3 (dets : List Detection) : List (Chars × ℚ) :=
  let c := correctedFullText dets
  (findAll (matchStd (charBtw '0' '5')) c ++ findAll (matchVH Char.isDigit) c).flatMap
    (fun g => gate (mkRat 9 10) (digitsToNat g.1) (digitsToNat g.2))

/-- Strategy 4: whitespace-separated hour/minute pairs on the corrected full
text, confidence `0.6`. -/
def strategy4 (dets : List Detection) : List (Chars × ℚ) :=
  (findAll matchSpaced (correctedFullText dets)).flatMap
    (fun g => gate (mkRat 6 10) (digitsToNat g.1) (digitsToNat g.2))

/-- The `bad_reading_fixes` table of Strategy 5, in source order. -/
def fixupList : List (Chars → Nat → Option (Chars × Nat)) :=
  [matchFix75, matchFix65, matchFixM7, matchFixM6]

/-- Strategy 5: apply each substitution; when it changed the text, rerun the
standard time pattern over the fixed text at confidence `0.8`. -/
def strategy5 (dets : List Detection) : List (Chars × ℚ) :=
  let full := joinTexts dets
  fixupList.flatMap (fun fx =>
    let fixed := subAll fx full
    if fixed = full then []
    else
      (findAll (matchStd (charBtw '0' '5')) fixed).flatMap
        (fun g => gate (mkRat 8 10) (digitsToNat g.1) (digitsToNat g.2)))

/-- `found_times` after all five strategy blocks have appended their candidates. -/
def foundTimes (dets : List Detection) : List (Chars × ℚ) :=
  (((strategy1 dets ++ strategy2 dets) ++ strategy3 dets) ++ strategy4 dets) ++
    strategy5 dets

/-- Lookup in the `unique_times` dict (first entry with the key). -/
def lookupQ (k : Chars) : List (Chars × ℚ) → Option ℚ
  | [] => none
  | (k', v) :: rest => if k' = k then some v else lookupQ k rest

/-- In-place value update of the first entry with key `k`, as Python dict
assignment on a present key does (position preserved). -/
def updateQ (k : Chars) (c : ℚ) : List (Chars × ℚ) → List (Chars × ℚ)
  | [] => []
  | (k', v) :: rest => if k' = k then (k', c) :: rest else (k', v) :: updateQ k c rest

/-- One iteration of the dedup loop
`if time_str not in unique_times or unique_times[time_str] < confidence:
unique_times[time_str] = confidence`. -/
def dedupInsert (acc : List (Chars × ℚ)) (x : Chars × ℚ) : List (Chars × ℚ) :=
  match lookupQ x.1 acc with
  | none => acc ++ [x]
  | some v => if v < x.2 then updateQ x.1 x.2 acc else acc

/-- The `unique_times` dict as an insertion-ordered association list. -/
def uniqueTimes (pool : List (Chars × ℚ)) : List (Chars × ℚ) :=
  pool.foldl dedupInsert []

/-- Stable insertion before the first strictly-smaller confidence. -/
def insertDesc (x : Chars × ℚ) : List (Chars × ℚ) → List (Chars × ℚ)
  | [] => [x]
  | y :: ys => if y.2 < x.2 then x :: y :: ys else y :: insertDesc x ys

/-- `sorted(unique_times.items(), key=lambda x: x[1], reverse=True)`: Python's
sort is stable, and descending stable sorting is exactly left-to-right stable
insertion where an element passes all entries with confidence ≥ its own. -/
def sortDesc (l : List (Chars × ℚ)) : List (Chars × ℚ) :=
  l.foldl (fun acc x => insertDesc x acc) []

/-- The tail of `extract_time_advanced`: dedup, sort, `return sorted_times[0][0]`,
and `return None` on an empty pool (`if found_times:` — the pool is empty iff
the deduplicated, sorted list is empty). -/
def selectBest (pool : List (Chars × ℚ)) : Option Chars :=
  match sortDesc (uniqueTimes pool) with
  | [] => none
  | x :: _ => some x.1

def extract_time_advanced (dets : List Detection) : Option Chars :=
  selectBest (foundTimes dets)

/-- `text_for_search = full_text.upper().replace('I', '1').replace('L', '1')`. -/
def textForSearch (dets : List Detection) : Chars :=
  replaceChar 'L' '1' (replaceChar 'I' '1' (upperChars (joinTexts dets)))

/-- One position of `re.search(r'\b' + re.escape(sym) + r'\b', t)`:
the escaped symbol is a literal, flanked by word boundaries. -/
def wordMatchAt (sym t : Chars) (i : Nat) : Bool :=
  boundary t i && sym.isPrefixOf (t.drop i) && boundary t (i + sym.length)

def wordSearch (sym t : Chars) : Bool :=
  (List.range (t.length + 1)).any (wordMatchAt sym t)

/-- `corrected_text = text_for_search.replace('O','0').replace('o','0').replace('Q','0')`. -/
def correctedText (dets : List Detection) : Chars :=
  replaceChar 'Q' '0' (replaceChar 'o' '0' (replaceChar 'O' '0' (textForSearch dets)))

def isUpperAZ (c : Char) : Bool := charBtw 'A' 'Z' c

/-- The suffix `[^A-Z]*(CE|PE)` of the strike pattern at position `j`:
`[^A-Z]*` is greedy and backtracks, but `C` and `P` are uppercase letters, so
only the maximal non-`[A-Z]` run can be followed by a `CE`/`PE` match. -/
def strikeTail (s : Chars) (j : Nat) : Option Chars :=
  let rest := s.drop j
  let t := countWhile (fun c => !isUpperAZ c) rest
  let after := rest.drop t
  if after.take 2 = ['C', 'E'] then some ['C', 'E']
  else if after.take 2 = ['P', 'E'] then some ['P', 'E']
  else none

/-- Greedy `\d{3,6}` backtracking: try the digit-group length from the maximum
down to 3 until the suffix matches. -/
def strikeTryLen (s : Chars) (i : Nat) : Nat → Option (Chars × Chars)
  | 0 => none
  | l + 1 =>
    if l + 1 < 3 then none
    else
      match strikeTail s (i + (l + 1)) with
      | some opt => some ((s.drop i).take (l + 1), opt)
      | none => strikeTryLen s i l

/-- `(\d{3,6})[^A-Z]*(CE|PE)` at one position. -/
def strikeMatchAt (s : Chars) (i : Nat) : Option (Chars × Chars) :=
  strikeTryLen s i (min (countWhile Char.isDigit (s.drop i)) 6)

/-- `re.search` scan for the strike pattern: leftmost match wins. -/
def strikeSearchAux (s : Chars) : Nat → Nat → Option (Chars × Chars)
  | _, 0 => none
  | i, fuel + 1 =>
    match strikeMatchAt s i with
    | some r => some r
    | none => if i < s.length then strikeSearchAux s (i + 1) fuel else none

def strikeSearch (s : Chars) : Option (Chars × Chars) :=
  strikeSearchAux s 0 (s.length + 1)

/-- The lot-size normalization
`int(strike_raw) // 100 if len(strike_raw) > 4 and strike_raw.endswith("00")
else int(strike_raw)`. -/
def strikeNorm (d : Chars) : Nat :=
  if 4 < d.length ∧ List.isSuffixOf ['0', '0'] d then digitsToNat d / 100
  else digitsToNat d

/-- `find_all_details(ocr_results, known_companies)`, returning
`(found_company, found_strike_num, found_option_type, found_time)`.  The
Python code renders `found_strike_num` through `str(...)`; the integer value
is kept here. -/
def find_all_details (dets : List Detection) (known_companies : List Chars) :
    Option Chars × Option Nat × Option Chars × Option Chars :=
  let tfs := textForSearch dets
  let company := known_companies.find? (fun sym => wordSearch sym tfs)
  let m := strikeSearch (correctedText dets)
  (company, m.map (fun r => strikeNorm r.1), m.map (fun r => r.2),
   extract_time_advanced dets)

/-- Python `str.split(sep)` for a single-character separator (empty pieces kept). -/
def splitSep (sep : Char) : Chars → List Chars
  | [] => [[]]
  | c :: cs =>
    match splitSep sep cs with
    | [] => [[]]
    | p :: ps => if c = sep then [] :: p :: ps else (c :: p) :: ps

def pyIntDigits (l : Chars) : Option Int :=
  if l ≠ [] ∧ l.all Char.isDigit then some (digitsToNat l) else none

/-- Python `int(str)` on ASCII input: optional surrounding whitespace, an
optional sign, then a nonempty run of decimal digits; anything else raises
`ValueError` (modelled as `none`).  Numeric-literal underscores and non-ASCII
digits are not modelled. -/
def pyInt (s : Chars) : Option Int :=
  match pyStrip s with
  | '+' :: rest => pyIntDigits rest
  | '-' :: rest => (pyIntDigits rest).map (fun n => -n)
  | t => pyIntDigits t

/-- `hour, minute = map(int, parts)` plus the window test; a part count other
than two, or a non-numeric part, raises `ValueError`, which the caller turns
into `False`. -/
def checkHM (parts : List Chars) : Bool :=
  match parts with
  | [a, b] =>
    match pyInt a, pyInt b with
    | some h, some m => decide (9 ≤ h ∧ h ≤ 15 ∧ 0 ≤ m ∧ m ≤ 59)
    | _, _ => false
  | _ => false

/-- `is_valid_time(time_str)` from `screenshot_processor.py`. -/
def is_valid_time (s : Chars) : Bool :=
  if decide (';' ∈ s) then checkHM (splitSep ';' s)
  else if decide (':' ∈ s) then checkHM (splitSep ':' s)
  else if decide ('.' ∈ s) then checkHM (splitSep '.' s)
  else false

/-- An EasyOCR bounding quadrilateral (four corner points). -/
structure Quad where
  p0 : ℚ × ℚ
  p1 : ℚ × ℚ
  p2 : ℚ × ℚ
  p3 : ℚ × ℚ

/-- A full EasyOCR tuple `(bbox, text, prob)` as used by `Smart_OCR_Tool.py`. -/
structure HDetection where
  bbox : Quad
  text : Chars
  prob : ℚ

/-- `get_center(bbox)` from `Smart_OCR_Tool.py`.  Float arithmetic is modelled
exactly in `ℚ`. -/
def get_center (b : Quad) : ℚ × ℚ :=
  ((b.p0.1 + b.p1.1) / 2, (b.p0.2 + b.p2.2) / 2)

def distSq (a b : ℚ × ℚ) : ℚ := (a.1 - b.1) ^ 2 + (a.2 - b.2) ^ 2

/-- `find_text_below(anchor_location, all_results)`.  The source compares
`math.sqrt(dx**2 + dy**2)` against the running minimum with `<`; the square
root is strictly monotone on nonnegative reals, so comparing squared
distances selects exactly the same entry. -/
def find_text_below (anchor : ℚ × ℚ) (all_results : List HDetection) : Option Chars :=
  (all_results.foldl
    (fun st r =>
      let c := get_center r.bbox
      if c.2 > anchor.2 ∧ |c.1 - anchor.1| < 75 then
        let d := distSq c anchor
        match st.1 with
        | none => (some d, some (pyStrip r.text))
        | some md => if d < md then (some d, some (pyStrip r.text)) else st
      else st)
    ((none : Option ℚ), (none : Option Chars))).2

/-- Python substring containment `needle in hay`. -/
def containsSub (needle hay : Chars) : Bool :=
  (List.range (hay.length + 1)).any (fun i => needle.isPrefixOf (hay.drop i))

def symbolWord : Chars := ['s', 'y', 'm', 'b', 'o', 'l']

def strike1Word : Chars := ['s', 't', 'r', 'i', 'k', 'e', '1']

/-- The anchor-location loop of `find_details_by_hybrid_anchor`: for each
detection, `clean_text = text.lower().replace(' ', '')`; the last detection
containing the anchor word wins, as repeated assignment in the loop does. -/
def hybridAnchors (dets : List HDetection) : Option (ℚ × ℚ) × Option (ℚ × ℚ) :=
  dets.foldl
    (fun st d =>
      let clean := (lowerChars d.text).filter (fun c => c ≠ ' ')
      let s1 := if containsSub symbolWord clean then some (get_center d.bbox) else st.1
      let s2 := if containsSub strike1Word clean then some (get_center d.bbox) else st.2
      (s1, s2))
    (none, none)

/-- `all_text = " ".join([res[1].upper() for res in ocr_results])`. -/
def hybridAllText (dets : List HDetection) : Chars :=
  match dets with
  | [] => []
  | d :: rest => upperChars d.text ++ rest.flatMap (fun e => ' ' :: upperChars e.text)

/-- The time regex `\d{1,2}[:;.]\d{2}` of `Smart_OCR_Tool.py` at one position:
the greedy `\d{1,2}` tries two digits first, then one; the match value is
`group(0)`. -/
def matchHybridTime (s : Chars) (i : Nat) : Option (Chars × Nat) :=
  match (match getC s i, getC s (i + 1), getC s (i + 2), getC s (i + 3), getC s (i + 4) with
         | some a, some b, some c, some d, some e =>
           if a.isDigit && b.isDigit && isSepC c && d.isDigit && e.isDigit
           then some ([a, b, c, d, e], 5) else none
         | _, _, _, _, _ => none) with
  | some r => some r
  | none =>
    match getC s i, getC s (i + 1), getC s (i + 2), getC s (i + 3) with
    | some a, some c, some d, some e =>
      if a.isDigit && isSepC c && d.isDigit && e.isDigit
      then some ([a, c, d, e], 4) else none
    | _, _, _, _ => none

/-- Generic `re.search`: leftmost position whose matcher succeeds. -/
def searchAux {γ : Type} (m : Chars → Nat → Option (γ × Nat)) (s : Chars) :
    Nat → Nat → Option γ
  | _, 0 => none
  | i, fuel + 1 =>
    match m s i with
    | some (g, _) => some g
    | none => if i < s.length then searchAux m s (i + 1) fuel else none

def reSearch {γ : Type} (m : Chars → Nat → Option (γ × Nat)) (s : Chars) : Option γ :=
  searchAux m s 0 (s.length + 1)

/-- `found_time = time_match.group(0).replace(':', ';').replace('.', ';')`. -/
def hybridTimeFix (t : Chars) : Chars :=
  replaceChar '.' ';' (replaceChar ':' ';' t)

/-- The time loop of `find_details_by_hybrid_anchor`: first detection whose
text contains the time pattern, with separators normalized to `;`. -/
def hybridTime (dets : List HDetection) : Option Chars :=
  dets.findSome? (fun d => (reSearch matchHybridTime d.text).map hybridTimeFix)

/-- `find_details_by_hybrid_anchor(ocr_results, known_companies)` from
`Smart_OCR_Tool.py`, returning `(found_company, found_strike_raw, found_time)`.
The positional company candidate is accepted only when nonempty (`if
candidate_company`) and its uppercase form is in the registry; otherwise the
fallback searches each registry entry as a plain substring of the joined
uppercase text. -/
def find_details_by_hybrid_anchor (dets : List HDetection) (known : List Chars) :
    Option Chars × Option Chars × Option Chars :=
  let anchors := hybridAnchors dets
  let posCompany :=
    match anchors.1 with
    | some loc =>
      match find_text_below loc dets with
      | some cand =>
        if cand ≠ [] ∧ upperChars cand ∈ known then some (upperChars cand) else none
      | none => none
    | none => none
  let company :=
    match posCompany with
    | some c => some c
    | none => known.find? (fun c => containsSub c (hybridAllText dets))
  let strikeRaw :=
    match anchors.2 with
    | some loc => find_text_below loc dets
    | none => none
  (company, strikeRaw, hybridTime dets)

/-- Spec-side reading of "occurs as a whole, word-boundary-delimited token":
the text decomposes around an occurrence of the symbol with a word boundary
on each side of it. -/
def OccursAsWord (sym t : Chars) : Prop :=
  ∃ pre post, t = pre ++ sym ++ post ∧ boundary t pre.length = true ∧
    boundary t (pre.length + sym.length) = true

def qMax2 (o : Option ℚ) (x : ℚ) : Option ℚ :=
  match o with
  | none => some x
  | some y => some (max y x)

/-- Maximum of a list of confidences (`none` on the empty list). -/
def maxConfList (l : List ℚ) : Option ℚ := l.foldl qMax2 none

/-- All confidences recorded in the pool for a given time string. -/
def confsOf (s : Chars) (pool : List (Chars × ℚ)) : List ℚ :=
  (pool.filter (fun x => decide (x.1 = s))).map Prod.snd

/-- Spec-side selection: the first-inserted candidate whose confidence is
maximal ("sorted by confidence descending, ties resolved in favor of the
first-inserted pair, take the top one"). -/
def firstMax : List (Chars × ℚ) → Option (Chars × ℚ)
  | [] => none
  | x :: xs =>
    match firstMax xs with
    | none => some x
    | some y => if y.2 ≤ x.2 then some x else some y

def detOf (s : String) : Detection := ⟨s.data, none⟩

def scenarioADets : List Detection :=
  [detOf (r"SYMBOL"), detOf (r"ABB"), detOf (r"STRIKE1"),
   detOf (r"6200CE"), detOf (r"09:15")]

def scenarioAReg : List Chars := [(r"ABB").data, (r"TCS").data]

/-! ### Normalizer lemmas -/

theorem foldl_replace_eq_map (L : List (Char × Char)) (s : Chars) :
    L.foldl (fun acc p => replaceChar p.1 p.2 acc) s =
      s.map (fun c => L.foldl (fun a p => if a = p.1 then p.2 else a) c) := by
  induction L generalizing s with
  | nil => simp
  | cons q L ih =>
    simp only [List.foldl_cons]
    rw [ih (replaceChar q.1 q.2 s)]
    simp [replaceChar, List.map_map, Function.comp]

theorem fix_eq_map (s : Chars) : fix_common_digit_errors s = s.map applyCorr :=
  foldl_replace_eq_map corrections s

theorem foldl_corr_mem_or_id (L : List (Char × Char)) (c : Char) :
    L.foldl (fun a p => if a = p.1 then p.2 else a) c = c ∨
      L.foldl (fun a p => if a = p.1 then p.2 else a) c ∈ L.map Prod.snd := by
  induction L generalizing c with
  | nil => exact Or.inl rfl
  | cons q L ih =>
    simp only [List.foldl_cons, List.map_cons]
    by_cases h : c = q.1
    · rw [if_pos h]
      rcases ih q.2 with h2 | h2
      · rw [h2]
        exact Or.inr (List.mem_cons_self _ _)
      · exact Or.inr (List.mem_cons_of_mem _ h2)
    · rw [if_neg h]
      rcases ih c with h2 | h2
      · exact Or.inl h2
      · exact Or.inr (List.mem_cons_of_mem _ h2)

theorem corrVals_fixed : ∀ v ∈ corrections.map Prod.snd, applyCorr v = v := by decide

theorem applyCorr_idem (c : Char) : applyCorr (applyCorr c) = applyCorr c := by
  rcases foldl_corr_mem_or_id corrections c with h | h
  · unfold applyCorr
    rw [h]
    exact h
  · exact corrVals_fixed _ h

theorem foldl_corr_not_key (L : List (Char × Char)) (c : Char)
    (h : c ∉ L.map Prod.fst) :
    L.foldl (fun a p => if a = p.1 then p.2 else a) c = c := by
  induction L with
  | nil => rfl
  | cons q L ih =>
    simp only [List.map_cons, List.mem_cons, not_or] at h
    simp only [List.foldl_cons, if_neg h.1]
    exact ih h.2

theorem applyCorr_of_not_key (c : Char) (h : c ∉ corrections.map Prod.fst) :
    applyCorr c = c :=
  foldl_corr_not_key corrections c h

theorem map_pointwise_id (s : Chars) (f : Char → Char) (h : ∀ c ∈ s, f c = c) :
    s.map f = s := by
  induction s with
  | nil => rfl
  | cons a t ih =>
    simp only [List.map_cons]
    rw [h a (List.mem_cons_self a t), ih (fun c hc => h c (List.mem_cons_of_mem a hc))]

theorem map_map_pointwise (s : Chars) (f : Char → Char) (h : ∀ c, f (f c) = f c) :
    (s.map f).map f = s.map f := by
  induction s with
  | nil => rfl
  | cons a t ih =>
    simp only [List.map_cons]
    rw [h a, ih]

/-- C9: a string containing no character that the comprehensive correction
table maps is returned unchanged by the Text Normalizer, and the normalizer
is idempotent: applying it to its own output is a no-op. -/
theorem normalizer_idempotent :
    (∀ s : Chars, (∀ c ∈ s, c ∉ corrections.map Prod.fst) →
        fix_common_digit_errors s = s) ∧
      ∀ s : Chars, fix_common_digit_errors (fix_common_digit_errors s) =
        fix_common_digit_errors s := by
  constructor
  · intro s h
    rw [fix_eq_map]
    exact map_pointwise_id s applyCorr (fun c hc => applyCorr_of_not_key c (h c hc))
  · intro s
    rw [fix_eq_map, fix_eq_map]
    exact map_map_pointwise s applyCorr applyCorr_idem

/-- Witness for C9 at the concrete table-free string `"XY:12"`. -/
theorem normalizer_idempotent_witness :
    fix_common_digit_errors ((r"XY:12").data) = (r"XY:12").data := by
  have h : ∀ c ∈ (r"XY:12").data, c ∉ corrections.map Prod.fst := by decide
  exact normalizer_idempotent.1 ((r"XY:12").data) h

/-! ### Candidate-pool invariant -/

theorem gate_mem {x : Chars × ℚ} {conf : ℚ} {h m : Nat} (hx : x ∈ gate conf h m) :
    (9 ≤ h ∧ h ≤ 15 ∧ m ≤ 59) ∧ x = (render h m, conf) := by
  unfold gate at hx
  split at hx
  · next hcond =>
    simp only [List.mem_singleton] at hx
    exact ⟨hcond, hx⟩
  · simp at hx

theorem mem_flatMap_gate {γ : Type} {L : List γ} {conf : ℚ} {fh fm : γ → Nat}
    {x : Chars × ℚ}
    (hx : x ∈ L.flatMap (fun g => gate conf (fh g) (fm g))) :
    ∃ h m, (9 ≤ h ∧ h ≤ 15 ∧ m ≤ 59) ∧ x.1 = render h m := by
  rcases List.mem_flatMap.mp hx with ⟨g, _, hg⟩
  rcases gate_mem hg with ⟨hw, he⟩
  exact ⟨fh g, fm g, hw, by rw [he]⟩

theorem foundTimes_inv (dets : List Detection) (x : Chars × ℚ)
    (hx : x ∈ foundTimes dets) :
    ∃ h m, (9 ≤ h ∧ h ≤ 15 ∧ m ≤ 59) ∧ x.1 = render h m := by
  unfold foundTimes at hx
  rcases List.mem_append.mp hx with hx | hx
  · rcases List.mem_append.mp hx with hx | hx
    · rcases List.mem_append.mp hx with hx | hx
      · rcases List.mem_append.mp hx with hx | hx
        · -- strategy 1
          unfold strategy1 at hx
          rcases List.mem_flatMap.mp hx with ⟨d, _, hd⟩
          simp only [strat1Det] at hd
          exact mem_flatMap_gate hd
        · -- strategy 2
          unfold strategy2 at hx
          simp only at hx
          rcases List.mem_flatMap.mp hx with ⟨g, _, hg⟩
          unfold strat2Group at hg
          rcases gate_mem hg with ⟨hw, he⟩
          exact ⟨_, _, hw, by rw [he]⟩
      · -- strategy 3
        unfold strategy3 at hx
        simp only at hx
        exact mem_flatMap_gate hx
    · -- strategy 4
      unfold strategy4 at hx
      exact mem_flatMap_gate hx
  · -- strategy 5
    unfold strategy5 at hx
    simp only at hx
    rcases List.mem_flatMap.mp hx with ⟨fx, _, hfx⟩
    split at hfx
    · simp at hfx
    · exact mem_flatMap_gate hfx

/-! ### Selection membership -/

theorem mem_insertDesc {x y : Chars × ℚ} {l : List (Chars × ℚ)}
    (h : x ∈ insertDesc y l) : x = y ∨ x ∈ l := by
  induction l with
  | nil => simpa [insertDesc] using h
  | cons z t ih =>
    unfold insertDesc at h
    split at h
    · rcases List.mem_cons.mp h with h2 | h2
      · exact Or.inl h2
      · exact Or.inr h2
    · rcases List.mem_cons.mp h with h2 | h2
      · exact Or.inr (h2 ▸ List.mem_cons_self z t)
      · rcases ih h2 with h3 | h3
        · exact Or.inl h3
        · exact Or.inr (List.mem_cons_of_mem z h3)

theorem mem_sortDesc_fold {l acc : List (Chars × ℚ)} {x : Chars × ℚ}
    (h : x ∈ l.foldl (fun a y => insertDesc y a) acc) : x ∈ acc ∨ x ∈ l := by
  induction l generalizing acc with
  | nil => exact Or.inl h
  | cons z t ih =>
    rcases ih h with h2 | h2
    · rcases mem_insertDesc h2 with h3 | h3
      · exact Or.inr (h3 ▸ List.mem_cons_self z t)
      · exact Or.inl h3
    · exact Or.inr (List.mem_cons_of_mem z h2)

theorem mem_sortDesc {l : List (Chars × ℚ)} {x : Chars × ℚ}
    (h : x ∈ sortDesc l) : x ∈ l := by
  rcases @mem_sortDesc_fold l [] x h with h2 | h2
  · simp at h2
  · exact h2

theorem mem_updateQ {k : Chars} {c : ℚ} {x : Chars × ℚ} {l : List (Chars × ℚ)}
    (h : x ∈ updateQ k c l) : x ∈ l ∨ x = (k, c) := by
  induction l with
  | nil => simp [updateQ] at h
  | cons z t ih =>
    unfold updateQ at h
    split at h
    · next heq =>
      rcases List.mem_cons.mp h with h2 | h2
      · right
        rw [h2, heq]
      · exact Or.inl (List.mem_cons_of_mem z h2)
    · rcases List.mem_cons.mp h with h2 | h2
      · exact Or.inl (h2 ▸ List.mem_cons_self z t)
      · rcases ih h2 with h3 | h3
        · exact Or.inl (List.mem_cons_of_mem z h3)
        · exact Or.inr h3

theorem mem_dedupInsert {acc : List (Chars × ℚ)} {y x : Chars × ℚ}
    (h : x ∈ dedupInsert acc y) : x ∈ acc ∨ x = y := by
  unfold dedupInsert at h
  cases hq : lookupQ y.1 acc with
  | none =>
    rw [hq] at h
    rcases List.mem_append.mp h with h2 | h2
    · exact Or.inl h2
    · simp only [List.mem_singleton] at h2
      exact Or.inr h2
  | some v =>
    rw [hq] at h
    dsimp only at h
    split at h
    · rcases mem_updateQ h with h2 | h2
      · exact Or.inl h2
      · exact Or.inr h2
    · exact Or.inl h

theorem mem_dedup_fold {pool acc : List (Chars × ℚ)} {x : Chars × ℚ}
    (h : x ∈ pool.foldl dedupInsert acc) : x ∈ acc ∨ ∃ c, (x.1, c) ∈ pool := by
  induction pool generalizing acc with
  | nil => exact Or.inl h
  | cons y t ih =>
    rcases ih h with h2 | h2
    · rcases mem_dedupInsert h2 with h3 | h3
      · exact Or.inl h3
      · refine Or.inr ⟨y.2, ?_⟩
        rw [h3]
        exact List.mem_cons_self y t
    · rcases h2 with ⟨c, hc⟩
      exact Or.inr ⟨c, List.mem_cons_of_mem y hc⟩

theorem mem_uniqueTimes {pool : List (Chars × ℚ)} {x : Chars × ℚ}
    (h : x ∈ uniqueTimes pool) : ∃ c, (x.1, c) ∈ pool := by
  rcases @mem_dedup_fold pool [] x h with h2 | h2
  · simp at h2
  · exact h2

theorem extract_mem (dets : List Detection) (s : Chars)
    (h : extract_time_advanced dets = some s) :
    ∃ c, (s, c) ∈ foundTimes dets := by
  unfold extract_time_advanced selectBest at h
  cases hs : sortDesc (uniqueTimes (foundTimes dets)) with
  | nil =>
    rw [hs] at h
    simp at h
  | cons x t =>
    rw [hs] at h
    simp only [Option.some.injEq] at h
    have hx : x ∈ sortDesc (uniqueTimes (foundTimes dets)) := by
      rw [hs]
      exact List.mem_cons_self x t
    rcases mem_uniqueTimes (mem_sortDesc hx) with ⟨c, hc⟩
    exact ⟨c, by rw [← h]; exact hc⟩

/-! ### Claim theorems: validity window, literal times, scenarios -/

/-- C1: for every detection list, a reported time is the rendering of an
(hour, minute) pair with `9 ≤ hour ≤ 15` and `0 ≤ minute ≤ 59` (minutes are
nonnegative by construction); and on detection text containing only
`"18;30"` — whose hour 18 no strategy maps into range — the engine reports no
time at all, rather than a clamped or out-of-window value. -/
theorem time_window_invariant :
    (∀ dets s, extract_time_advanced dets = some s →
      ∃ h m, (9 ≤ h ∧ h ≤ 15 ∧ m ≤ 59) ∧ s = render h m) ∧
      extract_time_advanced [detOf (r"18;30")] = none := by
  refine ⟨fun dets s hs => ?_, by decide⟩
  rcases extract_mem dets s hs with ⟨c, hc⟩
  rcases foundTimes_inv dets (s, c) hc with ⟨h, m, hw, he⟩
  exact ⟨h, m, hw, he⟩

/-- Witness for C1: the input `"11;50"` yields a reported time, and the
theorem exhibits its in-window pair. -/
theorem time_window_invariant_witness :
    ∃ h m, (9 ≤ h ∧ h ≤ 15 ∧ m ≤ 59) ∧ ((r"11;50").data : Chars) = render h m := by
  have hx : extract_time_advanced [detOf (r"11;50")] = some ((r"11;50").data) := by
    decide
  exact time_window_invariant.1 [detOf (r"11;50")] ((r"11;50").data) hx

theorem unobfKeyH9 : ∀ m, m < 60 →
    ((render 9 m, mkRat 1 2) ∈ strategy1 [⟨colonText 9 m, none⟩] ∧
     extract_time_advanced [⟨colonText 9 m, none⟩] = some (render 9 m)) := by
  decide

theorem unobfKeyH10 : ∀ m, m < 60 →
    ((render 10 m, mkRat 1 2) ∈ strategy1 [⟨colonText 10 m, none⟩] ∧
     extract_time_advanced [⟨colonText 10 m, none⟩] = some (render 10 m)) := by
  decide

theorem unobfKeyH11 : ∀ m, m < 60 →
    ((render 11 m, mkRat 1 2) ∈ strategy1 [⟨colonText 11 m, none⟩] ∧
     extract_time_advanced [⟨colonText 11 m, none⟩] = some (render 11 m)) := by
  decide

theorem unobfKeyH12 : ∀ m, m < 60 →
    ((render 12 m, mkRat 1 2) ∈ strategy1 [⟨colonText 12 m, none⟩] ∧
     extract_time_advanced [⟨colonText 12 m, none⟩] = some (render 12 m)) := by
  decide

theorem unobfKeyH13 : ∀ m, m < 60 →
    ((render 13 m, mkRat 1 2) ∈ strategy1 [⟨colonText 13 m, none⟩] ∧
     extract_time_advanced [⟨colonText 13 m, none⟩] = some (render 13 m)) := by
  decide

theorem unobfKeyH14 : ∀ m, m < 60 →
    ((render 14 m, mkRat 1 2) ∈ strategy1 [⟨colonText 14 m, none⟩] ∧
     extract_time_advanced [⟨colonText 14 m, none⟩] = some (render 14 m)) := by
  decide

theorem unobfKeyH15 : ∀ m, m < 60 →
    ((render 15 m, mkRat 1 2) ∈ strategy1 [⟨colonText 15 m, none⟩] ∧
     extract_time_advanced [⟨colonText 15 m, none⟩] = some (render 15 m)) := by
  decide

theorem unobfuscatedKey : ∀ d, d < 7 → ∀ m, m < 60 →
    ((render (9 + d) m, mkRat 1 2) ∈ strategy1 [⟨colonText (9 + d) m, none⟩] ∧
     extract_time_advanced [⟨colonText (9 + d) m, none⟩] =
       some (render (9 + d) m)) := by
  intro d hd m hm
  have hcase : d = 0 ∨ d = 1 ∨ d = 2 ∨ d = 3 ∨ d = 4 ∨ d = 5 ∨ d = 6 := by omega
  rcases hcase with rfl | rfl | rfl | rfl | rfl | rfl | rfl
  · exact unobfKeyH9 m hm
  · exact unobfKeyH10 m hm
  · exact unobfKeyH11 m hm
  · exact unobfKeyH12 m hm
  · exact unobfKeyH13 m hm
  · exact unobfKeyH14 m hm
  · exact unobfKeyH15 m hm

/-- C6: for every hour 9 ≤ h ≤ 15 and minute 0 ≤ m ≤ 59, on the single
detection with the literal unobfuscated text `"{h}:{m:02d}"`, Strategy 1
produces exactly the candidate for the pair (h, m) (at the default detection
confidence 0.5), and that pair is the winning final candidate of the engine. -/
theorem unobfuscated_time_wins (h m : Nat) (h9 : 9 ≤ h) (h15 : h ≤ 15)
    (m59 : m ≤ 59) :
    (render h m, mkRat 1 2) ∈ strategy1 [⟨colonText h m, none⟩] ∧
      extract_time_advanced [⟨colonText h m, none⟩] = some (render h m) := by
  obtain ⟨d, rfl⟩ : ∃ d, h = 9 + d := ⟨h - 9, by omega⟩
  exact unobfuscatedKey d (by omega) m (by omega)

/-- Witness for C6 at hour 9, minute 15. -/
theorem unobfuscated_time_wins_witness :
    (render 9 15, mkRat 1 2) ∈ strategy1 [⟨colonText 9 15, none⟩] ∧
      extract_time_advanced [⟨colonText 9 15, none⟩] = some (render 9 15) :=
  unobfuscated_time_wins 9 15 (by decide) (by decide) (by decide)

theorem validRenderH9 : ∀ m, m < 60 → is_valid_time (render 9 m) = true := by
  decide

theorem validRenderH10 : ∀ m, m < 60 → is_valid_time (render 10 m) = true := by
  decide

theorem validRenderH11 : ∀ m, m < 60 → is_valid_time (render 11 m) = true := by
  decide

theorem validRenderH12 : ∀ m, m < 60 → is_valid_time (render 12 m) = true := by
  decide

theorem validRenderH13 : ∀ m, m < 60 → is_valid_time (render 13 m) = true := by
  decide

theorem validRenderH14 : ∀ m, m < 60 → is_valid_time (render 14 m) = true := by
  decide

theorem validRenderH15 : ∀ m, m < 60 → is_valid_time (render 15 m) = true := by
  decide

theorem validRenderKey : ∀ h, h < 16 → 9 ≤ h → ∀ m, m < 60 →
    is_valid_time (render h m) = true := by
  intro h h16 h9 m hm
  have hcase : h = 9 ∨ h = 10 ∨ h = 11 ∨ h = 12 ∨ h = 13 ∨ h = 14 ∨ h = 15 := by
    omega
  rcases hcase with rfl | rfl | rfl | rfl | rfl | rfl | rfl
  · exact validRenderH9 m hm
  · exact validRenderH10 m hm
  · exact validRenderH11 m hm
  · exact validRenderH12 m hm
  · exact validRenderH13 m hm
  · exact validRenderH14 m hm
  · exact validRenderH15 m hm

/-- C10: every reported time is the rendering "hour (unpadded) ; minute
(two-digit)" of an in-window pair — regardless of the separator the source
text used — and is therefore accepted by the caller-side check
`is_valid_time`. -/
theorem time_render_format :
    ∀ dets s, extract_time_advanced dets = some s →
      ∃ h m, (9 ≤ h ∧ h ≤ 15 ∧ m ≤ 59) ∧ s = render h m ∧
        is_valid_time s = true := by
  intro dets s hs
  rcases extract_mem dets s hs with ⟨c, hc⟩
  rcases foundTimes_inv dets (s, c) hc with ⟨h, m, hw, he⟩
  refine ⟨h, m, hw, he, ?_⟩
  rw [show s = render h m from he]
  exact validRenderKey h (by omega) hw.1 m (by omega)

/-- Witness for C10: the input `"12:34"` (colon separator in the source)
yields the semicolon rendering, accepted by `is_valid_time`. -/
theorem time_render_format_witness :
    ∃ h m, (9 ≤ h ∧ h ≤ 15 ∧ m ≤ 59) ∧ ((r"12;34").data : Chars) = render h m ∧
      is_valid_time ((r"12;34").data) = true := by
  have hx : extract_time_advanced [detOf (r"12:34")] = some ((r"12;34").data) := by
    decide
  exact time_render_format [detOf (r"12:34")] ((r"12;34").data) hx

/-- C7 counterexample: on Scenario A's detections the engine finds NO time:
the zero-padded hour of `"09:15"` sits inside a digit pair, so the
word-boundary `\b` of every time pattern rejects it, and no repair strategy
fires; the claimed final time (9, 15) is not produced. -/
theorem scenarioA_time_none_cex :
    extract_time_advanced scenarioADets = none ∧
      extract_time_advanced scenarioADets ≠ some (render 9 15) := by
  refine ⟨by decide, by decide⟩

/-- C7 amended: Scenario A yields company "ABB", strike 6200, option type
"CE", and no time (instead of the claimed time (9, 15)). -/
theorem scenarioA_result :
    find_all_details scenarioADets scenarioAReg =
      (some ((r"ABB").data), some 6200, some ((r"CE").data), none) := by
  decide

/-- C8 counterexample: on detection text `"71;50"` the misread-hour repair
strategy does not produce the pair (1, 50): that pair cannot pass the
validity gate (hour 1 < 9), and the final time is not "1;50". -/
theorem misread_hour_pair_cex :
    (render 1 50, mkRat 7 10) ∉ strategy2 [detOf (r"71;50")] ∧
      gate (mkRat 7 10) 1 50 = [] ∧
      extract_time_advanced [detOf (r"71;50")] ≠ some (render 1 50) := by
  refine ⟨by decide, by decide, by decide⟩

/-- C8 amended: on detection text `"71;50"` the misread-hour repair strategy
produces the candidate (11, 50) at confidence 0.7, that candidate passes the
validity gate, and the time 11:50 becomes the final time. -/
theorem misread_hour_repair :
    (render 11 50, mkRat 7 10) ∈ strategy2 [detOf (r"71;50")] ∧
      gate (mkRat 7 10) 11 50 = [(render 11 50, mkRat 7 10)] ∧
      extract_time_advanced [detOf (r"71;50")] = some (render 11 50) := by
  refine ⟨by decide, by decide, by decide⟩

/-! ### Selection semantics (dedup keeps the max, sort is stable) -/

theorem lookupQ_append_one (s : Chars) (acc : List (Chars × ℚ)) (y : Chars × ℚ) :
    lookupQ s (acc ++ [y]) =
      match lookupQ s acc with
      | some v => some v
      | none => if y.1 = s then some y.2 else none := by
  induction acc with
  | nil => rfl
  | cons z t ih =>
    rcases z with ⟨k', v'⟩
    by_cases h : k' = s
    · simp [lookupQ, h]
    · simp [lookupQ, h, ih]

theorem lookupQ_updateQ (s k : Chars) (c : ℚ) (l : List (Chars × ℚ)) :
    lookupQ s (updateQ k c l) =
      if s = k then Option.map (fun _ => c) (lookupQ s l) else lookupQ s l := by
  induction l with
  | nil => simp [lookupQ, updateQ]
  | cons z t ih =>
    rcases z with ⟨k', v'⟩
    by_cases hk : k' = k
    · subst hk
      by_cases hs : k' = s
      · subst hs
        simp [updateQ, lookupQ]
      · have h1 : ¬s = k' := fun h => hs h.symm
        simp [updateQ, lookupQ, hs, h1]
    · by_cases hs : k' = s
      · subst hs
        have h1 : ¬k' = k := hk
        simp [updateQ, lookupQ, h1, fun h : k' = k => hk h]
      · simp [updateQ, lookupQ, hk, hs, ih]

theorem dedupInsert_lookup (s : Chars) (acc : List (Chars × ℚ)) (y : Chars × ℚ) :
    lookupQ s (dedupInsert acc y) =
      if y.1 = s then qMax2 (lookupQ s acc) y.2 else lookupQ s acc := by
  unfold dedupInsert
  cases hq : lookupQ y.1 acc with
  | none =>
    dsimp only
    rw [lookupQ_append_one]
    by_cases h : y.1 = s
    · subst h
      rw [hq]
      simp [qMax2]
    · cases hs : lookupQ s acc with
      | none => simp [h, hs]
      | some w => simp [h, hs]
  | some v =>
    dsimp only
    by_cases h : y.1 = s
    · subst h
      rw [if_pos rfl, hq]
      split
      · next hlt =>
        rw [lookupQ_updateQ, if_pos rfl, hq]
        simp [qMax2, max_eq_right (le_of_lt hlt)]
      · next hnlt =>
        rw [hq]
        simp [qMax2, max_eq_left (not_lt.mp hnlt)]
    · rw [if_neg h]
      split
      · rw [lookupQ_updateQ, if_neg (fun hh : s = y.1 => h hh.symm)]
      · rfl

theorem confsOf_cons (s : Chars) (y : Chars × ℚ) (t : List (Chars × ℚ)) :
    confsOf s (y :: t) =
      if y.1 = s then y.2 :: confsOf s t else confsOf s t := by
  by_cases h : y.1 = s <;> simp [confsOf, h]

theorem dedup_lookup_fold (pool : List (Chars × ℚ)) :
    ∀ (acc : List (Chars × ℚ)) (s : Chars),
      lookupQ s (pool.foldl dedupInsert acc) =
        (confsOf s pool).foldl qMax2 (lookupQ s acc) := by
  induction pool with
  | nil => intro acc s; rfl
  | cons y t ih =>
    intro acc s
    have step := dedupInsert_lookup s acc y
    by_cases h : y.1 = s
    · rw [List.foldl_cons, confsOf_cons, if_pos h, List.foldl_cons,
        ih (dedupInsert acc y) s, step, if_pos h]
    · rw [List.foldl_cons, confsOf_cons, if_neg h,
        ih (dedupInsert acc y) s, step, if_neg h]

theorem unique_lookup (pool : List (Chars × ℚ)) (s : Chars) :
    lookupQ s (uniqueTimes pool) = maxConfList (confsOf s pool) :=
  dedup_lookup_fold pool [] s

theorem lookupQ_eq_none_iff (k : Chars) (l : List (Chars × ℚ)) :
    lookupQ k l = none ↔ k ∉ l.map Prod.fst := by
  induction l with
  | nil => simp [lookupQ]
  | cons z t ih =>
    rcases z with ⟨k', v'⟩
    by_cases h : k' = k
    · subst h
      simp [lookupQ]
    · have h2 : ¬k = k' := fun hh => h hh.symm
      simp [lookupQ, h, h2, ih]

theorem keys_updateQ (k : Chars) (c : ℚ) (l : List (Chars × ℚ)) :
    (updateQ k c l).map Prod.fst = l.map Prod.fst := by
  induction l with
  | nil => rfl
  | cons z t ih =>
    rcases z with ⟨k', v'⟩
    by_cases h : k' = k
    · subst h
      simp [updateQ]
    · simp [updateQ, h, ih]

theorem dedupInsert_nodup {acc : List (Chars × ℚ)} (y : Chars × ℚ)
    (h : (acc.map Prod.fst).Nodup) : ((dedupInsert acc y).map Prod.fst).Nodup := by
  unfold dedupInsert
  cases hq : lookupQ y.1 acc with
  | none =>
    have hy : y.1 ∉ acc.map Prod.fst := (lookupQ_eq_none_iff y.1 acc).mp hq
    simp [List.nodup_append, h, hy]
  | some v =>
    dsimp only
    split
    · rw [keys_updateQ]
      exact h
    · exact h

theorem unique_nodup (pool : List (Chars × ℚ)) :
    ((uniqueTimes pool).map Prod.fst).Nodup := by
  have general : ∀ (acc : List (Chars × ℚ)), (acc.map Prod.fst).Nodup →
      ((pool.foldl dedupInsert acc).map Prod.fst).Nodup := by
    induction pool with
    | nil => intro acc h; exact h
    | cons y t ih => intro acc h; exact ih _ (dedupInsert_nodup y h)
  exact general [] (by simp)

theorem firstMax_append_one (u : List (Chars × ℚ)) (c : Chars × ℚ) :
    firstMax (u ++ [c]) =
      match firstMax u with
      | none => some c
      | some d => if d.2 < c.2 then some c else some d := by
  induction u with
  | nil => rfl
  | cons a u ih =>
    rw [List.cons_append]
    have e1 : firstMax (a :: (u ++ [c])) =
        match firstMax (u ++ [c]) with
        | none => some a
        | some y => if y.2 ≤ a.2 then some a else some y := rfl
    have e2 : firstMax (a :: u) =
        match firstMax u with
        | none => some a
        | some y => if y.2 ≤ a.2 then some a else some y := rfl
    rw [e1, ih, e2]
    cases hfm : firstMax u with
    | none =>
      dsimp only
      rcases le_or_lt c.2 a.2 with h | h
      · rw [if_pos h, if_neg (not_lt.mpr h)]
      · rw [if_neg (not_le.mpr h), if_pos h]
    | some y =>
      dsimp only
      by_cases h1 : y.2 < c.2
      · rw [if_pos h1]
        dsimp only
        by_cases h2 : c.2 ≤ a.2
        · rw [if_pos h2, if_pos (le_of_lt (lt_of_lt_of_le h1 h2))]
          dsimp only
          rw [if_neg (not_lt.mpr h2)]
        · rw [if_neg h2]
          by_cases h3 : y.2 ≤ a.2
          · rw [if_pos h3]
            dsimp only
            rw [if_pos (not_le.mp h2)]
          · rw [if_neg h3]
            dsimp only
            rw [if_pos h1]
      · rw [if_neg h1]
        dsimp only
        by_cases h2 : y.2 ≤ a.2
        · rw [if_pos h2]
          dsimp only
          rw [if_neg (not_lt.mpr (le_trans (not_lt.mp h1) h2))]
        · rw [if_neg h2]
          dsimp only
          rw [if_neg h1]

theorem head_insertDesc (c : Chars × ℚ) (l : List (Chars × ℚ)) :
    (insertDesc c l).head? =
      some (match l.head? with
            | none => c
            | some d => if d.2 < c.2 then c else d) := by
  cases l with
  | nil => rfl
  | cons y ys =>
    unfold insertDesc
    split
    · next h => simp [h]
    · next h => simp [h]

theorem sortDesc_append_one (u : List (Chars × ℚ)) (c : Chars × ℚ) :
    sortDesc (u ++ [c]) = insertDesc c (sortDesc u) := by
  simp [sortDesc, List.foldl_append]

theorem head_sortDesc (u : List (Chars × ℚ)) : (sortDesc u).head? = firstMax u := by
  induction u using List.reverseRecOn with
  | nil => rfl
  | append_singleton u c ih =>
    rw [sortDesc_append_one, firstMax_append_one, head_insertDesc, ih]
    cases hh : firstMax u with
    | none => rfl
    | some d =>
      dsimp only
      split
      · rfl
      · rfl

theorem selectBest_eq_head (pool : List (Chars × ℚ)) :
    selectBest pool = (sortDesc (uniqueTimes pool)).head?.map Prod.fst := by
  unfold selectBest
  cases sortDesc (uniqueTimes pool) with
  | nil => rfl
  | cons x t => rfl

theorem selectBest_eq_firstMax (pool : List (Chars × ℚ)) :
    selectBest pool = (firstMax (uniqueTimes pool)).map Prod.fst := by
  rw [selectBest_eq_head, head_sortDesc]

theorem maxConfList_eq_none_iff (l : List ℚ) : maxConfList l = none ↔ l = [] := by
  have general : ∀ (l : List ℚ) (v : ℚ), l.foldl qMax2 (some v) ≠ none := by
    intro l
    induction l with
    | nil => intro v h; exact Option.noConfusion h
    | cons x t ih => intro v; exact ih (max v x)
  cases l with
  | nil => simp [maxConfList]
  | cons x t =>
    simp only [maxConfList, List.foldl_cons]
    constructor
    · intro h
      exact absurd h (general t x)
    · intro h
      exact List.noConfusion h

theorem length_insertDesc (c : Chars × ℚ) (l : List (Chars × ℚ)) :
    (insertDesc c l).length = l.length + 1 := by
  induction l with
  | nil => rfl
  | cons y ys ih =>
    unfold insertDesc
    split
    · simp
    · simp [ih]

theorem length_sortDesc (u : List (Chars × ℚ)) : (sortDesc u).length = u.length := by
  have general : ∀ (u acc : List (Chars × ℚ)),
      (u.foldl (fun a x => insertDesc x a) acc).length = acc.length + u.length := by
    intro u
    induction u with
    | nil => intro acc; simp
    | cons y t ih =>
      intro acc
      rw [List.foldl_cons, ih (insertDesc y acc), length_insertDesc,
        List.length_cons]
      omega
  simpa using general u []

theorem sortDesc_eq_nil_iff (u : List (Chars × ℚ)) : sortDesc u = [] ↔ u = [] := by
  constructor
  · intro h
    have := length_sortDesc u
    rw [h] at this
    exact List.length_eq_zero.mp this.symm
  · intro h
    rw [h]
    rfl

theorem uniqueTimes_eq_nil_iff (pool : List (Chars × ℚ)) :
    uniqueTimes pool = [] ↔ pool = [] := by
  constructor
  · intro h
    cases hp : pool with
    | nil => rfl
    | cons y t =>
      exfalso
      have h1 := unique_lookup pool y.1
      rw [h] at h1
      have h2 : maxConfList (confsOf y.1 pool) = none := h1.symm ▸ rfl
      rw [maxConfList_eq_none_iff] at h2
      have : y.2 ∈ confsOf y.1 pool := by
        rw [hp]
        simp [confsOf_cons]
      rw [h2] at this
      exact absurd this (List.not_mem_nil y.2)
  · intro h
    rw [h]
    rfl

theorem selectBest_eq_none_iff (pool : List (Chars × ℚ)) :
    selectBest pool = none ↔ pool = [] := by
  rw [selectBest_eq_head]
  rw [Option.map_eq_none', List.head?_eq_none_iff, sortDesc_eq_nil_iff,
    uniqueTimes_eq_nil_iff]

theorem firstMax_eq_none_iff (u : List (Chars × ℚ)) : firstMax u = none ↔ u = [] := by
  cases u with
  | nil => simp [firstMax]
  | cons x xs =>
    simp only [firstMax]
    cases firstMax xs with
    | none => simp
    | some y =>
      dsimp only
      split
      · simp
      · simp

theorem firstMax_isMax (u : List (Chars × ℚ)) (d : Chars × ℚ)
    (h : firstMax u = some d) : d ∈ u ∧ ∀ y ∈ u, y.2 ≤ d.2 := by
  induction u generalizing d with
  | nil => simp [firstMax] at h
  | cons x xs ih =>
    rw [firstMax] at h
    cases hfm : firstMax xs with
    | none =>
      rw [hfm] at h
      dsimp only at h
      have hx : d = x := (Option.some.injEq _ _).mp h.symm
      have hnil : xs = [] := (firstMax_eq_none_iff xs).mp hfm
      subst hx
      subst hnil
      refine ⟨List.mem_cons_self d [], ?_⟩
      intro y hy
      rcases List.mem_cons.mp hy with h2 | h2
      · rw [h2]
      · exact absurd h2 (List.not_mem_nil y)
    | some z =>
      rw [hfm] at h
      dsimp only at h
      rcases ih z hfm with ⟨hz, hmax⟩
      split at h
      · next hle =>
        have hx : d = x := (Option.some.injEq _ _).mp h.symm
        subst hx
        refine ⟨List.mem_cons_self d xs, ?_⟩
        intro y hy
        rcases List.mem_cons.mp hy with h2 | h2
        · rw [h2]
        · exact le_trans (hmax y h2) hle
      · next hnle =>
        have hx : d = z := (Option.some.injEq _ _).mp h.symm
        subst hx
        refine ⟨List.mem_cons_of_mem x hz, ?_⟩
        intro y hy
        rcases List.mem_cons.mp hy with h2 | h2
        · rw [h2]
          exact le_of_lt (not_le.mp hnle)
        · exact hmax y h2

/-- C4: the final time selection deduplicates the pooled candidates by their
rendered (hour, minute) key, keeping the maximum confidence recorded for that
key (the dict has pairwise-distinct keys); it returns the first-inserted
candidate of maximal confidence — the head of the stable
confidence-descending sort — and returns none exactly when the pool is empty,
which for the engine means: no time is found iff no strategy contributed a
candidate. -/
theorem time_selection_spec :
    (∀ pool : List (Chars × ℚ),
      selectBest pool = (firstMax (uniqueTimes pool)).map Prod.fst ∧
      (selectBest pool = none ↔ pool = []) ∧
      (∀ s, lookupQ s (uniqueTimes pool) = maxConfList (confsOf s pool)) ∧
      ((uniqueTimes pool).map Prod.fst).Nodup ∧
      (∀ d, firstMax (uniqueTimes pool) = some d →
        d ∈ uniqueTimes pool ∧ ∀ y ∈ uniqueTimes pool, y.2 ≤ d.2)) ∧
    ∀ dets, extract_time_advanced dets = none ↔ foundTimes dets = [] := by
  constructor
  · intro pool
    exact ⟨selectBest_eq_firstMax pool, selectBest_eq_none_iff pool,
      unique_lookup pool, unique_nodup pool,
      fun d hd => firstMax_isMax (uniqueTimes pool) d hd⟩
  · intro dets
    exact selectBest_eq_none_iff (foundTimes dets)

/-- Witness for C4 at a concrete pool with a duplicated key: the candidate
`("b", 0.9)` is the selected maximal entry. -/
theorem time_selection_spec_witness :
    ((r"b").data, mkRat 9 10) ∈
        uniqueTimes [((r"a").data, mkRat 1 2), ((r"b").data, mkRat 9 10),
          ((r"a").data, mkRat 7 10)] ∧
      ∀ y ∈ uniqueTimes [((r"a").data, mkRat 1 2), ((r"b").data, mkRat 9 10),
          ((r"a").data, mkRat 7 10)], y.2 ≤ ((r"b").data, mkRat 9 10).2 := by
  exact (time_selection_spec.1 [((r"a").data, mkRat 1 2),
    ((r"b").data, mkRat 9 10), ((r"a").data, mkRat 7 10)]).2.2.2.2
    ((r"b").data, mkRat 9 10) (by decide)

/-! ### Company matcher: scan ↔ word-boundary decomposition -/

theorem isPrefixOf_iff_append (a : Chars) :
    ∀ b : Chars, a.isPrefixOf b = true ↔ ∃ t, a ++ t = b := by
  induction a with
  | nil =>
    intro b
    simp [List.isPrefixOf]
  | cons x xs ih =>
    intro b
    cases b with
    | nil => simp [List.isPrefixOf]
    | cons y ys =>
      simp only [List.isPrefixOf, Bool.and_eq_true, beq_iff_eq, ih ys,
        List.cons_append, List.cons.injEq]
      constructor
      · rintro ⟨hxy, t, ht⟩
        exact ⟨t, hxy, ht⟩
      · rintro ⟨t, hxy, ht⟩
        exact ⟨hxy, t, ht⟩

theorem wordSearch_iff (sym t : Chars) :
    wordSearch sym t = true ↔ OccursAsWord sym t := by
  unfold wordSearch OccursAsWord
  rw [List.any_eq_true]
  constructor
  · rintro ⟨i, hi, hm⟩
    rw [List.mem_range] at hi
    unfold wordMatchAt at hm
    rw [Bool.and_eq_true, Bool.and_eq_true] at hm
    obtain ⟨⟨hb1, hp⟩, hb2⟩ := hm
    rcases (isPrefixOf_iff_append sym (t.drop i)).mp hp with ⟨post, hpost⟩
    have hlen : (t.take i).length = i :=
      List.length_take_of_le (Nat.le_of_lt_succ hi)
    refine ⟨t.take i, post, ?_, ?_, ?_⟩
    · rw [List.append_assoc, hpost, List.take_append_drop]
    · rw [hlen]
      exact hb1
    · rw [hlen]
      exact hb2
  · rintro ⟨pre, post, ht, hb1, hb2⟩
    refine ⟨pre.length, ?_, ?_⟩
    · rw [List.mem_range]
      have hlen := congrArg List.length ht
      simp only [List.length_append] at hlen
      omega
    · unfold wordMatchAt
      rw [Bool.and_eq_true, Bool.and_eq_true]
      refine ⟨⟨hb1, ?_⟩, hb2⟩
      rw [isPrefixOf_iff_append]
      refine ⟨post, ?_⟩
      rw [ht, List.append_assoc, List.drop_left]

theorem find?_eq_some_first {α : Type} (p : α → Bool) (l : List α) (c : α) :
    l.find? p = some c ↔
      ∃ l1 l2, l = l1 ++ c :: l2 ∧ p c = true ∧ ∀ x ∈ l1, p x = false := by
  induction l with
  | nil => simp
  | cons a t ih =>
    by_cases h : p a
    · rw [List.find?_cons_of_pos _ h]
      constructor
      · intro hc
        rw [Option.some.injEq] at hc
        exact ⟨[], t, by rw [hc]; rfl, by rw [← hc]; exact h, by simp⟩
      · rintro ⟨l1, l2, hl, hpc, hall⟩
        cases l1 with
        | nil =>
          simp only [List.nil_append, List.cons.injEq] at hl
          rw [hl.1]
        | cons b l1 =>
          simp only [List.cons_append, List.cons.injEq] at hl
          have : p a = false := hl.1 ▸ hall b (List.mem_cons_self b l1)
          rw [h] at this
          exact Bool.noConfusion this
    · rw [List.find?_cons_of_neg _ h, ih]
      constructor
      · rintro ⟨l1, l2, hl, hpc, hall⟩
        refine ⟨a :: l1, l2, by rw [hl]; rfl, hpc, ?_⟩
        intro x hx
        rcases List.mem_cons.mp hx with h2 | h2
        · rw [h2]
          exact Bool.of_not_eq_true h
        · exact hall x h2
      · rintro ⟨l1, l2, hl, hpc, hall⟩
        cases l1 with
        | nil =>
          simp only [List.nil_append, List.cons.injEq] at hl
          rw [← hl.1] at hpc
          exact absurd hpc h
        | cons b l1 =>
          simp only [List.cons_append, List.cons.injEq] at hl
          exact ⟨l1, l2, hl.2, hpc, fun x hx => hall x (List.mem_cons_of_mem b hx)⟩

/-- C2 amended (the `screenshot_processor.py` matcher): `find_all_details`
returns exactly the first registry entry occurring as a whole,
word-boundary-delimited token of the normalized uppercase joined text, and
null exactly when no entry so occurs. -/
theorem company_word_match_spec (dets : List Detection) (reg : List Chars) :
    (∀ c, (find_all_details dets reg).1 = some c ↔
      ∃ l1 l2, reg = l1 ++ c :: l2 ∧ OccursAsWord c (textForSearch dets) ∧
        ∀ sym ∈ l1, ¬OccursAsWord sym (textForSearch dets)) ∧
    ((find_all_details dets reg).1 = none ↔
      ∀ sym ∈ reg, ¬OccursAsWord sym (textForSearch dets)) := by
  have hcomp : (find_all_details dets reg).1 =
      reg.find? (fun sym => wordSearch sym (textForSearch dets)) := rfl
  constructor
  · intro c
    rw [hcomp, find?_eq_some_first]
    constructor
    · rintro ⟨l1, l2, hl, hc, hall⟩
      refine ⟨l1, l2, hl, (wordSearch_iff c _).mp hc, ?_⟩
      intro sym hs hocc
      have h1 := (wordSearch_iff sym _).mpr hocc
      have h2 := hall sym hs
      rw [h1] at h2
      exact Bool.noConfusion h2
    · rintro ⟨l1, l2, hl, hocc, hall⟩
      refine ⟨l1, l2, hl, (wordSearch_iff c _).mpr hocc, ?_⟩
      intro x hx
      have := hall x hx
      cases hw : wordSearch x (textForSearch dets) with
      | false => rfl
      | true => exact absurd ((wordSearch_iff x _).mp hw) this
  · rw [hcomp, List.find?_eq_none]
    constructor
    · intro h sym hs hocc
      exact h sym hs ((wordSearch_iff sym _).mpr hocc)
    · intro h sym hs hw
      exact h sym hs ((wordSearch_iff sym _).mp hw)

/-- Witness for C2 (amended) on a concrete run: with registry
`["TCS", "ABB"]` and text containing `ABB` as a whole word but not `TCS`,
the matcher's answer "ABB" decomposes the registry as required. -/
theorem company_word_match_spec_witness :
    ∃ l1 l2, [(r"TCS").data, (r"ABB").data] = l1 ++ ((r"ABB").data) :: l2 ∧
      OccursAsWord ((r"ABB").data) (textForSearch [detOf (r"XX ABB 9")]) ∧
      ∀ sym ∈ l1,
        ¬OccursAsWord sym (textForSearch [detOf (r"XX ABB 9")]) := by
  have h := (company_word_match_spec [detOf (r"XX ABB 9")]
    [(r"TCS").data, (r"ABB").data]).1 ((r"ABB").data)
  exact h.mp (by decide)

/-- C2 counterexample (the `Smart_OCR_Tool.py` matcher): its fallback uses
plain substring containment, so with registry `["ABB"]` and detection text
`"CABBAGE"` it returns "ABB" although "ABB" occurs only inside the longer
token "CABBAGE" — not as a word-boundary-delimited token — where the claim
requires null. -/
theorem company_substring_fallback_cex :
    (find_details_by_hybrid_anchor
        [⟨⟨(0, 0), (1, 0), (1, 1), (0, 1)⟩, (r"CABBAGE").data, 1⟩]
        [(r"ABB").data]).1 = some ((r"ABB").data) ∧
      ¬OccursAsWord ((r"ABB").data)
        (hybridAllText
          [⟨⟨(0, 0), (1, 0), (1, 1), (0, 1)⟩, (r"CABBAGE").data, 1⟩]) := by
  constructor
  · decide
  · intro hocc
    have hw := (wordSearch_iff ((r"ABB").data)
      (hybridAllText
        [⟨⟨(0, 0), (1, 0), (1, 1), (0, 1)⟩, (r"CABBAGE").data, 1⟩])).mpr hocc
    have hfalse : wordSearch ((r"ABB").data)
        (hybridAllText
          [⟨⟨(0, 0), (1, 0), (1, 1), (0, 1)⟩, (r"CABBAGE").data, 1⟩]) = false := by
      decide
    rw [hfalse] at hw
    exact Bool.noConfusion hw

/-! ### Strike extractor: captured groups, leftmost match, value bounds -/

theorem countWhile_le_length (p : Char → Bool) (l : Chars) :
    countWhile p l ≤ l.length := by
  induction l with
  | nil => exact Nat.le_refl 0
  | cons c cs ih =>
    unfold countWhile
    split
    · simpa using ih
    · simp

theorem take_all_of_le_countWhile (p : Char → Bool) (l : Chars) :
    ∀ n, n ≤ countWhile p l → (l.take n).all p = true := by
  induction l with
  | nil =>
    intro n hn
    simp [countWhile] at hn
    simp [hn]
  | cons c cs ih =>
    intro n hn
    unfold countWhile at hn
    split at hn
    · next hp =>
      cases n with
      | zero => simp
      | succ k =>
        simp only [List.take_succ_cons, List.all_cons, hp, Bool.true_and]
        exact ih k (Nat.le_of_succ_le_succ hn)
    · have : n = 0 := Nat.le_zero.mp hn
      simp [this]

theorem charDigit_val_le (c : Char) (h : c.isDigit = true) : c.toNat - 48 ≤ 9 := by
  unfold Char.isDigit at h
  rw [Bool.and_eq_true] at h
  have h2 := h.2
  rw [decide_eq_true_eq] at h2
  have h3 : c.toNat ≤ 57 := h2
  omega

theorem digitsToNat_lt_general (d : Chars) :
    ∀ acc, d.all Char.isDigit = true →
      d.foldl (fun a c => 10 * a + (c.toNat - 48)) acc < (acc + 1) * 10 ^ d.length := by
  induction d with
  | nil =>
    intro acc _
    simp
  | cons c cs ih =>
    intro acc hall
    rw [List.all_cons, Bool.and_eq_true] at hall
    have hc := charDigit_val_le c hall.1
    rw [List.foldl_cons]
    have step := ih (10 * acc + (c.toNat - 48)) hall.2
    have grow : (10 * acc + (c.toNat - 48) + 1) * 10 ^ cs.length ≤
        (acc + 1) * 10 ^ (c :: cs).length := by
      rw [List.length_cons, pow_succ]
      have h1 : 10 * acc + (c.toNat - 48) + 1 ≤ (acc + 1) * 10 := by omega
      calc (10 * acc + (c.toNat - 48) + 1) * 10 ^ cs.length
          ≤ (acc + 1) * 10 * 10 ^ cs.length :=
            Nat.mul_le_mul_right _ h1
        _ = (acc + 1) * (10 ^ cs.length * 10) := by ring
    exact Nat.lt_of_lt_of_le step grow

theorem digitsToNat_lt (d : Chars) (h : d.all Char.isDigit = true) :
    digitsToNat d < 10 ^ d.length := by
  have := digitsToNat_lt_general d 0 h
  simpa [digitsToNat] using this

theorem strikeTail_opt (s : Chars) (j : Nat) (opt : Chars)
    (h : strikeTail s j = some opt) : opt = ['C', 'E'] ∨ opt = ['P', 'E'] := by
  simp only [strikeTail] at h
  split at h
  · rw [Option.some.injEq] at h
    exact Or.inl h.symm
  · split at h
    · rw [Option.some.injEq] at h
      exact Or.inr h.symm
    · exact Option.noConfusion h

theorem strikeTryLen_spec (s : Chars) (i : Nat) :
    ∀ L, L ≤ countWhile Char.isDigit (s.drop i) → L ≤ 6 →
      ∀ d opt, strikeTryLen s i L = some (d, opt) →
        d.all Char.isDigit = true ∧ 3 ≤ d.length ∧ d.length ≤ 6 ∧
          (opt = ['C', 'E'] ∨ opt = ['P', 'E']) := by
  intro L
  induction L with
  | zero =>
    intro _ _ d opt h
    exact Option.noConfusion h
  | succ l ih =>
    intro hcw h6 d opt h
    unfold strikeTryLen at h
    split at h
    · exact Option.noConfusion h
    · next hge =>
      cases ht : strikeTail s (i + (l + 1)) with
      | some opt0 =>
        rw [ht] at h
        dsimp only at h
        rw [Option.some.injEq, Prod.mk.injEq] at h
        obtain ⟨hd, hopt⟩ := h
        have hlen : ((s.drop i).take (l + 1)).length = l + 1 :=
          List.length_take_of_le
            (Nat.le_trans hcw (countWhile_le_length Char.isDigit (s.drop i)))
        constructor
        · rw [← hd]
          exact take_all_of_le_countWhile Char.isDigit (s.drop i) (l + 1) hcw
        constructor
        · rw [← hd, hlen]
          omega
        constructor
        · rw [← hd, hlen]
          exact h6
        · rw [hopt] at ht
          exact strikeTail_opt s (i + (l + 1)) opt ht
      | none =>
        rw [ht] at h
        dsimp only at h
        exact ih (Nat.le_of_succ_le hcw) (Nat.le_of_succ_le h6) d opt h

theorem strikeMatchAt_spec (s : Chars) (i : Nat) (d opt : Chars)
    (h : strikeMatchAt s i = some (d, opt)) :
    d.all Char.isDigit = true ∧ 3 ≤ d.length ∧ d.length ≤ 6 ∧
      (opt = ['C', 'E'] ∨ opt = ['P', 'E']) :=
  strikeTryLen_spec s i (min (countWhile Char.isDigit (s.drop i)) 6)
    (Nat.min_le_left _ _) (Nat.min_le_right _ _) d opt h

theorem strikeSearchAux_spec (s : Chars) :
    ∀ (fuel i : Nat) (r : Chars × Chars), strikeSearchAux s i fuel = some r →
      ∃ k, i ≤ k ∧ strikeMatchAt s k = some r ∧
        ∀ j, i ≤ j → j < k → strikeMatchAt s j = none := by
  intro fuel
  induction fuel with
  | zero =>
    intro i r h
    exact Option.noConfusion h
  | succ f ih =>
    intro i r h
    unfold strikeSearchAux at h
    cases hm : strikeMatchAt s i with
    | some r0 =>
      rw [hm] at h
      dsimp only at h
      refine ⟨i, Nat.le_refl i, ?_, ?_⟩
      · rw [hm, h]
      · intro j h1 h2
        omega
    | none =>
      rw [hm] at h
      dsimp only at h
      split at h
      · rcases ih (i + 1) r h with ⟨k, hk1, hk2, hk3⟩
        refine ⟨k, by omega, hk2, ?_⟩
        intro j h1 h2
        rcases Nat.eq_or_lt_of_le h1 with h3 | h3
        · rw [← h3]
          exact hm
        · exact hk3 j h3 h2
      · exact Option.noConfusion h

theorem strikeSearch_leftmost (s : Chars) (r : Chars × Chars)
    (h : strikeSearch s = some r) :
    ∃ k, strikeMatchAt s k = some r ∧ ∀ j < k, strikeMatchAt s j = none := by
  rcases strikeSearchAux_spec s (s.length + 1) 0 r h with ⟨k, _, hk2, hk3⟩
  exact ⟨k, hk2, fun j hj => hk3 j (Nat.zero_le j) hj⟩

/-- C3: whenever the strike pattern captures a digit run `d` (of 3–6 digits)
followed by a `CE`/`PE` token, `find_all_details` reports the strike
`int(d) // 100` when `len(d) > 4` and `d` ends in "00" and `int(d)` unchanged
otherwise, and reports the option type verbatim from that same match — the
first (earliest-in-text) match of the pattern. -/
theorem strike_capture_normalization (dets : List Detection) (reg : List Chars)
    (d opt : Chars) (h : strikeSearch (correctedText dets) = some (d, opt)) :
    (find_all_details dets reg).2.1 = some (strikeNorm d) ∧
      (find_all_details dets reg).2.2.1 = some opt ∧
      strikeNorm d = (if 4 < d.length ∧ List.isSuffixOf ['0', '0'] d
        then digitsToNat d / 100 else digitsToNat d) ∧
      d.all Char.isDigit = true ∧ 3 ≤ d.length ∧ d.length ≤ 6 ∧
      (opt = ['C', 'E'] ∨ opt = ['P', 'E']) ∧
      ∃ k, strikeMatchAt (correctedText dets) k = some (d, opt) ∧
        ∀ j < k, strikeMatchAt (correctedText dets) j = none := by
  have e1 : (find_all_details dets reg).2.1 =
      (strikeSearch (correctedText dets)).map (fun r => strikeNorm r.1) := rfl
  have e2 : (find_all_details dets reg).2.2.1 =
      (strikeSearch (correctedText dets)).map (fun r => r.2) := rfl
  rcases strikeSearch_leftmost _ _ h with ⟨k, hk, hleft⟩
  rcases strikeMatchAt_spec _ _ _ _ hk with ⟨hall, h3, h6, hopt⟩
  refine ⟨?_, ?_, rfl, hall, h3, h6, hopt, k, hk, hleft⟩
  · rw [e1, h]
    rfl
  · rw [e2, h]
    rfl

/-- Witness for C3 at the concrete text `"4350PE"`: strike 4350, option PE. -/
theorem strike_capture_normalization_witness :
    (find_all_details [detOf (r"4350PE")] []).2.1 = some 4350 ∧
      (find_all_details [detOf (r"4350PE")] []).2.2.1 = some ((r"PE").data) := by
  have h := strike_capture_normalization [detOf (r"4350PE")] [] ((r"4350").data)
    ((r"PE").data) (by decide)
  refine ⟨?_, h.2.1⟩
  rw [h.1]
  decide

/-- C5 counterexample: on text `"99999CE"` the captured 5-digit run does not
end in "00", no lot-size division applies, and the reported strike is 99999 —
five significant digits, outside the claimed 1–4-digit range. -/
theorem strike_digit_bound_cex :
    (find_all_details [detOf (r"99999CE")] []).2.1 = some 99999 ∧
      ¬(99999 < 10000) := ⟨by decide, by decide⟩

/-- C5 amended: the extracted strike is a nonnegative integer below 10^6; it
has at most 4 digits whenever the captured run has at most 4 digits, or has
more than 4 digits and ends in "00"; a 5–6-digit run not ending in "00" is
reported unchanged and may have 5 or 6 digits (and an all-zero run yields
strike 0, which is not positive). -/
theorem strike_value_bounds (dets : List Detection) (reg : List Chars)
    (d opt : Chars) (h : strikeSearch (correctedText dets) = some (d, opt)) :
    (find_all_details dets reg).2.1 = some (strikeNorm d) ∧
      strikeNorm d < 1000000 ∧
      ((d.length ≤ 4 ∨ (4 < d.length ∧ List.isSuffixOf ['0', '0'] d)) →
        strikeNorm d < 10000) := by
  have e1 : (find_all_details dets reg).2.1 =
      (strikeSearch (correctedText dets)).map (fun r => strikeNorm r.1) := rfl
  rcases strikeSearch_leftmost _ _ h with ⟨k, hk, _⟩
  rcases strikeMatchAt_spec _ _ _ _ hk with ⟨hall, h3, h6, _⟩
  have hv : digitsToNat d < 10 ^ d.length := digitsToNat_lt d hall
  have hv6 : digitsToNat d < 1000000 := by
    have hp : (10 : Nat) ^ d.length ≤ 10 ^ 6 :=
      Nat.pow_le_pow_right (by norm_num) h6
    calc digitsToNat d < 10 ^ d.length := hv
      _ ≤ 10 ^ 6 := hp
      _ = 1000000 := by norm_num
  refine ⟨by rw [e1, h]; rfl, ?_, ?_⟩
  · unfold strikeNorm
    split
    · exact lt_of_le_of_lt (Nat.div_le_self _ _) hv6
    · exact hv6
  · intro hcase
    unfold strikeNorm
    split
    · rw [Nat.div_lt_iff_lt_mul (by norm_num : (0 : Nat) < 100)]
      calc digitsToNat d < 1000000 := hv6
        _ = 10000 * 100 := by norm_num
    · next hcond =>
      rcases hcase with hle | hboth
      · have hp : (10 : Nat) ^ d.length ≤ 10 ^ 4 :=
          Nat.pow_le_pow_right (by norm_num) hle
        calc digitsToNat d < 10 ^ d.length := hv
          _ ≤ 10 ^ 4 := hp
          _ = 10000 := by norm_num
      · exact absurd hboth hcond

/-- Witness for C5 at the concrete text `"620000CE"`: the 6-digit run ends in
"00", and the normalized strike 6200 is below 10000. -/
theorem strike_value_bounds_witness :
    (find_all_details [detOf (r"620000CE")] []).2.1 =
        some (strikeNorm ((r"620000").data)) ∧
      strikeNorm ((r"620000").data) < 1000000 ∧
      strikeNorm ((r"620000").data) < 10000 := by
  have h := strike_value_bounds [detOf (r"620000CE")] [] ((r"620000").data)
    ((r"CE").data) (by decide)
  exact ⟨h.1, h.2.1, h.2.2 (Or.inr ⟨by decide, by decide⟩)⟩
